import Mathlib

/-!
Verification of the toolbox Ruby-heap introspection engine: a shallow
embedding of the tagged-value classifier (`value.py`), the flonum decoder
(`rfloat.py`), the heap scanner (`heap.py`) and the fiber unwinder /
pending-error check (`fiber.py`), with theorems settling the spec claims.

Machine words are modelled as `Nat` (Python `int(value)` of an unsigned
64-bit `VALUE` is non-negative); IEEE-754 doubles are modelled by their
64-bit bit patterns (the bit pattern of `0.0` is `0`).
-/

namespace Toolbox

/-! ## Tagged value classifier (`value.py`) -/

/-- Embedding of `value.is_nil`: Qnil is `0x04` or `0x08` depending on the
Ruby version. -/
def is_nil (w : Nat) : Bool :=
  w == 0x04 || w == 0x08

/-- Embedding of `value.is_immediate`: special constants (`Qfalse = 0`) or
any word with one of the two low bits set. -/
def is_immediate (w : Nat) : Bool :=
  w == 0 || (w &&& 0x03) != 0

/-- Embedding of `value.is_object`: a heap object is anything that is not
immediate. -/
def is_object (w : Nat) : Bool :=
  !is_immediate w

/-- Embedding of the fixnum test used by `RImmediate.__str__` /
`print_to`: the single low bit. -/
def fixnum_p (w : Nat) : Bool :=
  (w &&& 0x01) != 0

/-- Embedding of the fixnum payload computed by `RImmediate` in
`value.py`: `self.val_int >> 1` on the non-negative Python integer
obtained from the unsigned 64-bit `VALUE`, i.e. a logical right shift. -/
def rimmediate_fixnum_payload (w : Nat) : Nat :=
  w >>> 1

/-- Interpretation of a 64-bit word as a signed (two's complement)
integer. -/
def toSigned64 (w : Nat) : Int :=
  if w < 2 ^ 63 then (w : Int) else (w : Int) - 2 ^ 64

/-- Arithmetic right shift by one of a 64-bit word, as the spec describes
the fixnum payload: the signed interpretation divided by two, rounding
towards negative infinity. -/
def arithShiftRightOne (w : Nat) : Int :=
  Int.fdiv (toSigned64 w) 2

/-- Spec-side fixnum encoder: shift the payload left by one and set the
low bit, reduced to a 64-bit word. -/
def encodeFixnum (payload : Int) : Nat :=
  ((payload * 2 + 1).emod (2 ^ 64)).toNat

/-! ## Flonum decoder (`rfloat.py`) -/

/-- Embedding of `rfloat.is_flonum` with the default enum values
`RUBY_FLONUM_MASK = 0x03`, `RUBY_FLONUM_FLAG = 0x02`. -/
def is_flonum (w : Nat) : Bool :=
  (w &&& 0x03) == 0x02

/-- Clearing of the two low bits of a word: Python `v & ~0x03` on a
non-negative `v`. -/
def clearLow2 (v : Nat) : Nat :=
  (v >>> 2) <<< 2

/-- Rotation of a 64-bit word right by 3 bits, as in
`RFloatImmediate.float_value`:
`((x >> 3) | (x << 61)) & 0xFFFFFFFFFFFFFFFF`. -/
def rotr3 (x : Nat) : Nat :=
  ((x >>> 3) ||| (x <<< 61)) &&& 0xFFFFFFFFFFFFFFFF

/-- Embedding of `RFloatImmediate.float_value`, returning the 64-bit
IEEE-754 bit pattern handed to `struct.unpack('d', struct.pack('Q', _))`
(a pure bit reinterpretation); the special case returns the literal `0.0`,
whose bit pattern is `0`. -/
def float_value_bits (v : Nat) : Nat :=
  if v = 0x8000000000000002 then 0
  else
    let b63 := (v >>> 63) &&& 1
    let adjusted := (2 - b63) ||| clearLow2 v
    rotr3 adjusted

/-- Modelled from the spec: the flonum formula as §4.1 words it — extract
the top bit, conditionally merge it into the low bits, rotate right by 3.
Used only to compare with the source-derived `float_value_bits`. -/
def spec_flonum_bits (v : Nat) : Nat :=
  let merged := if (v >>> 63) &&& 1 = 1 then clearLow2 v ||| 1 else clearLow2 v ||| 2
  rotr3 merged

/-! ## Fiber pending-error check (`fiber.py`, `rexception.py`) -/

/-- Embedding of the validation in `RException.__init__`: construction
succeeds (no exception raised) exactly when the value is not immediate;
no memory is read during construction (all other fields are lazy). -/
def rexception_init_ok (w : Nat) : Bool :=
  !is_immediate w

/-- Embedding of `RubyFiber.exception` for a pending-error slot holding
the word `errinfo`: a non-`None` `RException` is produced exactly when
the guard `value.is_object(errinfo) and not value.is_nil(errinfo)` passes
and `RException(errinfo)` constructs successfully. -/
def fiber_exception_reported (errinfo : Nat) : Bool :=
  is_object errinfo && !is_nil errinfo && rexception_init_ok errinfo

/-! ## Fiber unwinder (`RubyFiberUnwinder.__call__` in `fiber.py`) -/

/-- Synthetic frame produced by the fiber unwinder: the saved registers
plus the reconstructed `rsp` and the return address `rip`. -/
structure UnwindInfo where
  rip : Nat
  rsp : Nat
  rbp : Nat
  rbx : Nat
  r12 : Nat
  r13 : Nat
  r14 : Nat
  r15 : Nat
  deriving DecidableEq, Repr

/-- Embedding of `RubyFiberUnwinder.__call__`. `mem a` is the 64-bit word
read from memory at byte address `a` (`uint64_ptr[k]` is
`mem (stack_ptr + 8 * k)`). `active` models `self.active_fiber` being set
and `unwound_first` models `self.unwound_first_frame`; `stack_ptr` is
`int(fiber.context.stack_pointer)`. The reconstructed stack pointer is
`gdb.Value(stack_ptr + 48 + 8).cast(uint64_t)`, i.e. reduced mod 2^64. -/
def fiber_unwind (active : Bool) (unwound_first : Bool) (stack_ptr : Nat)
    (mem : Nat → Nat) : Option UnwindInfo :=
  if !active then none
  else if unwound_first then none
  else if stack_ptr = 0 then none
  else
    let r15 := mem (stack_ptr + 0)
    let r14 := mem (stack_ptr + 8)
    let r13 := mem (stack_ptr + 16)
    let r12 := mem (stack_ptr + 24)
    let rbx := mem (stack_ptr + 32)
    let rbp := mem (stack_ptr + 40)
    let rsp := (stack_ptr + 48 + 8) % 2 ^ 64
    let rip := mem (stack_ptr + 48)
    if rsp = 0 ∨ rip = 0 then none
    else some ⟨rip, rsp, rbp, rbx, r12, r13, r14, r15⟩

/-! ## Heap scanner (`heap.py`)

A heap snapshot is a page table plus a memory function: `mem a` is the
64-bit flags word read at the slot address `a` (`RBasic.flags` sits at
offset 0, as `RubyHeap.initialize` computes). Reads always succeed on a
fixed snapshot, matching the scanner's happy path. -/

/-- HeapPage: the three fields of a heap page the scanner reads
(`page['start']`, `page['total_slots']`, `page['slot_size']`). -/
structure HeapPage where
  start : Nat
  total_slots : Nat
  slot_size : Nat
  deriving DecidableEq, Repr

/-- RubyHeap snapshot: the page table `objspace.heap_pages.sorted`
(as the list of pages `_get_page` returns, in index order) and the flags
word readable at each slot address. -/
structure RubyHeap where
  pages : List HeapPage
  mem : Nat → Nat

namespace RubyHeap

/-- Yield of one slot `j` of page `p` in `_iterate_heap_from_page`:
the slot address is `start + j * slot_size`, the flags word is read from
memory there, and a slot with flags exactly `0` is skipped (`continue`);
otherwise the pair `(obj_address, flags)` is yielded (the yielded VALUE is
the slot address itself). -/
def slotYield (mem : Nat → Nat) (p : HeapPage) (j : Nat) : Option (Nat × Nat) :=
  let addr := p.start + j * p.slot_size
  let flags := mem addr
  if flags = 0 then none else some (addr, flags)

/-- Yields of page `p` from slot index `s0` to the end, in ascending slot
order (`for j in range(start_slot, total_slots)`). -/
def slotsFrom (mem : Nat → Nat) (p : HeapPage) (s0 : Nat) : List (Nat × Nat) :=
  ((List.range p.total_slots).drop s0).filterMap (slotYield mem p)

/-- Yields of one page visited without a resume address: pages with
invalid dimensions (`total_slots <= 0 or slot_size <= 0`) are skipped
entirely, otherwise all slots from index 0 are visited. -/
def pageYield (mem : Nat → Nat) (p : HeapPage) : List (Nat × Nat) :=
  if p.total_slots = 0 ∨ p.slot_size = 0 then [] else slotsFrom mem p 0

/-- Start slot computed for the resume page:
`(skip_until_address - start_int) // slot_size` with Python floor
division on (possibly negative) integers. -/
def pythonStartSlot (p : HeapPage) (a : Nat) : Int :=
  Int.fdiv ((a : Int) - (p.start : Int)) (p.slot_size : Int)

/-- Yields of the resume page: after the invalid-dimension check, the
start slot is computed from the resume address; a start slot at or past
`total_slots` skips the page (`continue`), a negative one is clamped
to 0. -/
def pageYieldSkip (mem : Nat → Nat) (p : HeapPage) (a : Nat) : List (Nat × Nat) :=
  if p.total_slots = 0 ∨ p.slot_size = 0 then []
  else
    let s := pythonStartSlot p a
    if (p.total_slots : Int) ≤ s then []
    else slotsFrom mem p (if s < 0 then 0 else s.toNat)

/-- Yields of a list of pages visited in order with no skipping. -/
def pagesYield (mem : Nat → Nat) (ps : List HeapPage) : List (Nat × Nat) :=
  ps.flatMap (pageYield mem)

/-- Embedding of `RubyHeap._iterate_heap_from_page`: pages from
`start_page` onward are visited in ascending index order; only the first
visited page (`i == start_page`) honours `skip_until_address`. -/
def iterate_heap_from_page (h : RubyHeap) (start_page : Nat)
    (skip_until_address : Option Nat) : List (Nat × Nat) :=
  match skip_until_address with
  | none => pagesYield h.mem (h.pages.drop start_page)
  | some a =>
    match h.pages.drop start_page with
    | [] => []
    | p :: rest => pageYieldSkip h.mem p a ++ pagesYield h.mem rest

/-- Containment test of `_find_page_for_address`:
`int(start) <= address < int(start) + total_slots * slot_size`. -/
def pageContains (p : HeapPage) (a : Nat) : Bool :=
  p.start ≤ a && a < p.start + p.total_slots * p.slot_size

/-- Linear search of `_find_page_for_address`, returning the index of the
first page whose range contains the address. -/
def findPageAux (ps : List HeapPage) (a : Nat) (i : Nat) : Option Nat :=
  match ps with
  | [] => none
  | p :: rest => if pageContains p a then some i else findPageAux rest a (i + 1)

/-- Embedding of `RubyHeap._find_page_for_address`. -/
def find_page_for_address (h : RubyHeap) (a : Nat) : Option Nat :=
  findPageAux h.pages a 0

/-- Embedding of `RubyHeap.iterate_heap_from`, also reporting whether the
"Address not found in heap, starting from beginning" warning was printed:
with no resume address the whole heap is iterated; with one, the owning
page is searched for, and on failure the scan warns and restarts from
page 0 with no in-page skipping. -/
def iterate_heap_fromW (h : RubyHeap) (from_address : Option Nat) :
    Bool × List (Nat × Nat) :=
  match from_address with
  | none => (false, iterate_heap_from_page h 0 none)
  | some a =>
    match find_page_for_address h a with
    | none => (true, iterate_heap_from_page h 0 none)
    | some i => (false, iterate_heap_from_page h i (some a))

/-- Yields of `RubyHeap.iterate_heap_from` (the warning discarded). -/
def iterate_heap_from (h : RubyHeap) (from_address : Option Nat) :
    List (Nat × Nat) :=
  (iterate_heap_fromW h from_address).2

/-- RBASIC_FLAGS_TYPE_MASK: the low 5 bits of the flags word are the type
tag. -/
def RBASIC_FLAGS_TYPE_MASK : Nat := 0x1f

/-- Python truthiness of the `limit` argument in `if limit and
len(objects) >= limit`: `None` and `0` are falsy. -/
def limitTruthy : Option Nat → Bool
  | none => false
  | some n => n != 0

/-- Mismatch test of the `scan` type filter: with a filter present, a
yield whose flags have a different low-5-bit tag is skipped. -/
def typeMismatch (type_flag : Option Nat) (flags : Nat) : Bool :=
  match type_flag with
  | none => false
  | some t => (flags &&& RBASIC_FLAGS_TYPE_MASK) != t

/-- Loop body of `RubyHeap.scan` over the yielded `(VALUE, flags,
address)` stream (the VALUE and the address coincide): skip mismatching
types; once `limit` objects are collected, the next matching address
becomes `next_address` and the loop breaks; otherwise collect. -/
def scanGo (type_flag : Option Nat) (limit : Option Nat) (acc : List Nat) :
    List (Nat × Nat) → List Nat × Option Nat
  | [] => (acc, none)
  | (addr, flags) :: rest =>
    if typeMismatch type_flag flags then scanGo type_flag limit acc rest
    else if limitTruthy limit && limit.getD 0 ≤ acc.length then (acc, some addr)
    else scanGo type_flag limit (acc ++ [addr]) rest

/-- Embedding of `RubyHeap.scan`: returns the collected VALUEs (slot
addresses) and the optional pagination cursor. -/
def scan (h : RubyHeap) (type_flag : Option Nat) (limit : Option Nat)
    (from_address : Option Nat) : List Nat × Option Nat :=
  scanGo type_flag limit [] (iterate_heap_from h from_address)

/-- Disjointness of the address ranges of two pages, stated
arithmetically (one range ends at or before the other begins). -/
def pagesDisjoint (p q : HeapPage) : Prop :=
  q.start + q.total_slots * q.slot_size ≤ p.start ∨
    p.start + p.total_slots * p.slot_size ≤ q.start

instance : DecidablePred fun pq : HeapPage × HeapPage => pagesDisjoint pq.1 pq.2 :=
  fun _ => by unfold pagesDisjoint; infer_instance

/-- Well-formed heap snapshot: every page has a positive slot size and
the pages' address ranges are pairwise disjoint. -/
def WellFormed (h : RubyHeap) : Prop :=
  (∀ p ∈ h.pages, 0 < p.slot_size) ∧ h.pages.Pairwise pagesDisjoint

instance : DecidablePred WellFormed := fun h => by
  unfold WellFormed
  have : DecidableRel pagesDisjoint := fun p q =>
    by unfold pagesDisjoint; infer_instance
  infer_instance

/-- Match test of the `scan` type filter (negation of `typeMismatch`),
used to characterise the collected objects. -/
def matchesF (tf : Option Nat) (e : Nat × Nat) : Bool :=
  !typeMismatch tf e.2

/-- Concrete four-slot heap of the end-to-end scenario: one page at
address 4096 with 4 slots of 40 bytes and slot flags
`0x05, 0x05, 0x00, 0x07`. -/
def scenarioHeap : RubyHeap :=
  { pages := [⟨4096, 4, 40⟩]
    mem := fun a =>
      if a = 4096 then 0x05
      else if a = 4136 then 0x05
      else if a = 4176 then 0x00
      else if a = 4216 then 0x07
      else 0 }

/-- Concrete two-page heap used to witness the pagination claim. -/
def pagingHeap : RubyHeap :=
  { pages := [⟨4096, 4, 40⟩, ⟨8192, 3, 40⟩]
    mem := fun a =>
      if a = 4096 then 0x05
      else if a = 4136 then 0x05
      else if a = 4176 then 0x00
      else if a = 4216 then 0x07
      else if a = 8192 then 0x05
      else if a = 8232 then 0x00
      else if a = 8272 then 0x0c
      else 0 }

lemma scanGo_no_limit (tf lim : Option Nat) (hlim : limitTruthy lim = false)
    (L : List (Nat × Nat)) (acc : List Nat) :
    scanGo tf lim acc L = (acc ++ (L.filter (matchesF tf)).map Prod.fst, none) := by
  induction L generalizing acc with
  | nil => simp [scanGo]
  | cons e rest ih =>
    obtain ⟨addr, flags⟩ := e
    by_cases hm : typeMismatch tf flags
    · simpa [scanGo, hm, matchesF] using ih acc
    · simp [scanGo, hm, hlim, matchesF, ih (acc ++ [addr])]

lemma scanGo_limit (tf : Option Nat) (N : Nat) (hN : 0 < N)
    (L : List (Nat × Nat)) (acc : List Nat) (hacc : acc.length ≤ N) :
    scanGo tf (some N) acc L =
      (acc ++ ((L.filter (matchesF tf)).take (N - acc.length)).map Prod.fst,
       ((L.filter (matchesF tf)).drop (N - acc.length)).head?.map Prod.fst) := by
  induction L generalizing acc with
  | nil => simp [scanGo]
  | cons e rest ih =>
    obtain ⟨addr, flags⟩ := e
    simp only [scanGo]
    by_cases hm : typeMismatch tf flags = true
    · rw [if_pos hm, ih acc hacc]
      have hm' : matchesF tf (addr, flags) = false := by simp [matchesF, hm]
      simp [List.filter_cons, hm']
    · rw [if_neg hm]
      have hm' : matchesF tf (addr, flags) = true := by simp [matchesF, hm]
      by_cases hful : N ≤ acc.length
      · have heq : acc.length = N := le_antisymm hacc hful
        rw [if_pos (by simp [limitTruthy]; omega)]
        simp [List.filter_cons, hm', heq]
      · rw [if_neg (by simp [limitTruthy]; omega)]
        rw [ih (acc ++ [addr]) (by simp; omega)]
        have hsub : N - acc.length = (N - (acc.length + 1)) + 1 := by omega
        simp [List.filter_cons, hm', hsub, List.take_succ_cons,
          List.drop_succ_cons]

lemma scanGo_mem (tf lim : Option Nat) (L : List (Nat × Nat)) (acc : List Nat)
    (a : Nat) (ha : a ∈ (scanGo tf lim acc L).1) :
    a ∈ acc ∨ ∃ fl, (a, fl) ∈ L ∧ matchesF tf (a, fl) = true := by
  induction L generalizing acc with
  | nil => simp [scanGo] at ha; exact Or.inl ha
  | cons e rest ih =>
    obtain ⟨addr, flags⟩ := e
    simp only [scanGo] at ha
    by_cases hm : typeMismatch tf flags = true
    · rw [if_pos hm] at ha
      rcases ih acc ha with h | ⟨fl, hfl, hmf⟩
      · exact Or.inl h
      · exact Or.inr ⟨fl, List.mem_cons_of_mem _ hfl, hmf⟩
    · rw [if_neg hm] at ha
      by_cases hbrk : (limitTruthy lim && decide (lim.getD 0 ≤ acc.length)) = true
      · rw [if_pos hbrk] at ha
        exact Or.inl (by simpa using ha)
      · rw [if_neg hbrk] at ha
        rcases ih (acc ++ [addr]) ha with h | ⟨fl, hfl, hmf⟩
        · rcases List.mem_append.mp h with h | h
          · exact Or.inl h
          · have : a = addr := by simpa using h
            subst this
            exact Or.inr ⟨flags, List.mem_cons_self _ _, by simp [matchesF, hm]⟩
        · exact Or.inr ⟨fl, List.mem_cons_of_mem _ hfl, hmf⟩

lemma slotYield_eq_some {mem : Nat → Nat} {p : HeapPage} {j : Nat}
    {e : Nat × Nat} (h : slotYield mem p j = some e) :
    e.1 = p.start + j * p.slot_size ∧ e.2 = mem e.1 ∧ e.2 ≠ 0 := by
  unfold slotYield at h
  by_cases hz : mem (p.start + j * p.slot_size) = 0
  · simp [hz] at h
  · simp only [hz, if_false, Option.some.injEq] at h
    subst h
    exact ⟨rfl, rfl, hz⟩

lemma mem_slotsFrom {mem : Nat → Nat} {p : HeapPage} {s0 : Nat}
    {e : Nat × Nat} (h : e ∈ slotsFrom mem p s0) :
    (∃ j < p.total_slots, e.1 = p.start + j * p.slot_size) ∧
      e.2 = mem e.1 ∧ e.2 ≠ 0 := by
  obtain ⟨j, hj, hy⟩ := List.mem_filterMap.mp h
  have hjlt : j < p.total_slots := List.mem_range.mp (List.mem_of_mem_drop hj)
  obtain ⟨h1, h2, h3⟩ := slotYield_eq_some hy
  exact ⟨⟨j, hjlt, h1⟩, h2, h3⟩

lemma mem_pageYield {mem : Nat → Nat} {p : HeapPage} {e : Nat × Nat}
    (h : e ∈ pageYield mem p) :
    p.total_slots ≠ 0 ∧ p.slot_size ≠ 0 ∧
      (∃ j < p.total_slots, e.1 = p.start + j * p.slot_size) ∧
      e.2 = mem e.1 ∧ e.2 ≠ 0 := by
  unfold pageYield at h
  by_cases hv : p.total_slots = 0 ∨ p.slot_size = 0
  · simp [hv] at h
  · push_neg at hv
    simp only [hv.1, hv.2, or_self, if_false] at h
    exact ⟨hv.1, hv.2, mem_slotsFrom (by simpa using h)⟩

lemma mem_pageYieldSkip {mem : Nat → Nat} {p : HeapPage} {a : Nat}
    {e : Nat × Nat} (h : e ∈ pageYieldSkip mem p a) :
    (∃ j < p.total_slots, e.1 = p.start + j * p.slot_size) ∧
      e.2 = mem e.1 ∧ e.2 ≠ 0 := by
  unfold pageYieldSkip at h
  by_cases hv : p.total_slots = 0 ∨ p.slot_size = 0
  · simp [hv] at h
  · simp only [hv, if_false] at h
    by_cases hs : (p.total_slots : Int) ≤ pythonStartSlot p a
    · simp [hs] at h
    · simp only [hs, if_false] at h
      exact mem_slotsFrom h

lemma mem_iterate_heap_from {h : RubyHeap} {fa : Option Nat} {e : Nat × Nat}
    (he : e ∈ iterate_heap_from h fa) :
    (∃ p ∈ h.pages, ∃ j < p.total_slots, e.1 = p.start + j * p.slot_size) ∧
      e.2 = h.mem e.1 ∧ e.2 ≠ 0 := by
  have hpages : ∀ sp skip, e ∈ iterate_heap_from_page h sp skip →
      (∃ p ∈ h.pages, ∃ j < p.total_slots, e.1 = p.start + j * p.slot_size) ∧
        e.2 = h.mem e.1 ∧ e.2 ≠ 0 := by
    intro sp skip hmem
    unfold iterate_heap_from_page at hmem
    match skip with
    | none =>
      obtain ⟨p, hp, hpe⟩ := List.mem_flatMap.mp hmem
      obtain ⟨_, _, hj, h2, h3⟩ := mem_pageYield hpe
      exact ⟨⟨p, List.mem_of_mem_drop hp, hj⟩, h2, h3⟩
    | some a =>
      cases hdrop : h.pages.drop sp with
      | nil => rw [hdrop] at hmem; simp at hmem
      | cons p rest =>
        rw [hdrop] at hmem
        rcases List.mem_append.mp hmem with hmem | hmem
        · obtain ⟨hj, h2, h3⟩ := mem_pageYieldSkip hmem
          have hp : p ∈ h.pages :=
            List.mem_of_mem_drop (hdrop ▸ List.mem_cons_self p rest)
          exact ⟨⟨p, hp, hj⟩, h2, h3⟩
        · obtain ⟨q, hq, hqe⟩ := List.mem_flatMap.mp hmem
          obtain ⟨_, _, hj, h2, h3⟩ := mem_pageYield hqe
          have hq' : q ∈ h.pages :=
            List.mem_of_mem_drop (hdrop ▸ List.mem_cons_of_mem p hq)
          exact ⟨⟨q, hq', hj⟩, h2, h3⟩
  cases fa with
  | none =>
    unfold iterate_heap_from iterate_heap_fromW at he
    exact hpages 0 none he
  | some a =>
    have he' : e ∈ (match find_page_for_address h a with
        | none => (true, iterate_heap_from_page h 0 none)
        | some i => (false, iterate_heap_from_page h i (some a))).2 := he
    cases hfind : find_page_for_address h a with
    | none => rw [hfind] at he'; exact hpages 0 none he'
    | some i => rw [hfind] at he'; exact hpages i (some a) he'

lemma iterate_heap_from_none (h : RubyHeap) :
    iterate_heap_from h none = pagesYield h.mem h.pages := by
  simp [iterate_heap_from, iterate_heap_fromW, iterate_heap_from_page]

lemma scan_mem {h : RubyHeap} {tf lim fa : Option Nat} {a : Nat}
    (ha : a ∈ (scan h tf lim fa).1) :
    ∃ fl, (a, fl) ∈ iterate_heap_from h fa ∧ matchesF tf (a, fl) = true := by
  rcases scanGo_mem tf lim _ [] a ha with h | h
  · simp at h
  · exact h

lemma findPageAux_eq_none {ps : List HeapPage} {a : Nat}
    (hnc : ∀ q ∈ ps, pageContains q a = false) :
    ∀ i, findPageAux ps a i = none := by
  induction ps with
  | nil => intro i; rfl
  | cons p rest ih =>
    intro i
    have hp : pageContains p a = false := hnc p (List.mem_cons_self p rest)
    simp only [findPageAux, hp]
    exact ih (fun q hq => hnc q (List.mem_cons_of_mem p hq)) (i + 1)

lemma filter_split {α : Type} (P : α → Bool) :
    ∀ (l A : List α) (e : α) (B : List α), l.filter P = A ++ e :: B →
      ∃ l₁ l₂, l = l₁ ++ e :: l₂ ∧ l₁.filter P = A ∧ l₂.filter P = B ∧ P e = true := by
  intro l
  induction l with
  | nil => intro A e B hsplit; simp at hsplit
  | cons x tl ih =>
    intro A e B hsplit
    by_cases hx : P x = true
    · rw [List.filter_cons_of_pos hx] at hsplit
      cases A with
      | nil =>
        simp only [List.nil_append, List.cons.injEq] at hsplit
        obtain ⟨hxe, htl⟩ := hsplit
        subst hxe
        exact ⟨[], tl, rfl, rfl, htl, hx⟩
      | cons a A' =>
        simp only [List.cons_append, List.cons.injEq] at hsplit
        obtain ⟨hxa, htl⟩ := hsplit
        obtain ⟨l₁, l₂, h1, h2, h3, h4⟩ := ih A' e B htl
        exact ⟨x :: l₁, l₂, by rw [h1, List.cons_append],
          by rw [List.filter_cons_of_pos hx, h2, hxa], h3, h4⟩
    · rw [List.filter_cons_of_neg (by simpa using hx)] at hsplit
      obtain ⟨l₁, l₂, h1, h2, h3, h4⟩ := ih A e B hsplit
      exact ⟨x :: l₁, l₂, by rw [h1, List.cons_append],
        by rw [List.filter_cons_of_neg (by simpa using hx), h2], h3, h4⟩

lemma filterMap_split {α β : Type} (f : α → Option β) :
    ∀ (l : List α) (A : List β) (e : β) (B : List β), l.filterMap f = A ++ e :: B →
      ∃ l₁ x l₂, l = l₁ ++ x :: l₂ ∧ f x = some e ∧
        l₁.filterMap f = A ∧ l₂.filterMap f = B := by
  intro l
  induction l with
  | nil => intro A e B hsplit; simp at hsplit
  | cons y tl ih =>
    intro A e B hsplit
    cases hy : f y with
    | none =>
      simp only [List.filterMap_cons, hy] at hsplit
      obtain ⟨l₁, x, l₂, h1, h2, h3, h4⟩ := ih A e B hsplit
      exact ⟨y :: l₁, x, l₂, by rw [h1]; rfl, h2,
        by simp [List.filterMap_cons, hy, h3], h4⟩
    | some b =>
      simp only [List.filterMap_cons, hy] at hsplit
      cases A with
      | nil =>
        simp only [List.nil_append, List.cons.injEq] at hsplit
        obtain ⟨hbe, htl⟩ := hsplit
        subst hbe
        exact ⟨[], y, tl, rfl, hy, rfl, htl⟩
      | cons a A' =>
        simp only [List.cons_append, List.cons.injEq] at hsplit
        obtain ⟨hba, htl⟩ := hsplit
        obtain ⟨l₁, x, l₂, h1, h2, h3, h4⟩ := ih A' e B htl
        exact ⟨y :: l₁, x, l₂, by rw [h1]; rfl, h2,
          by simp [List.filterMap_cons, hy, h3, hba], h4⟩

lemma flatMap_split {α β : Type} (f : α → List β) :
    ∀ (l : List α) (A : List β) (e : β) (B : List β), l.flatMap f = A ++ e :: B →
      ∃ l₁ x l₂ A2 B2, l = l₁ ++ x :: l₂ ∧ f x = A2 ++ e :: B2 ∧
        A = l₁.flatMap f ++ A2 ∧ B = B2 ++ l₂.flatMap f := by
  intro l
  induction l with
  | nil => intro A e B hsplit; simp at hsplit
  | cons y tl ih =>
    intro A e B hsplit
    rw [List.flatMap_cons] at hsplit
    rcases List.append_eq_append_iff.mp hsplit with ⟨a', hA, htl⟩ | ⟨c, hfy, hB⟩
    · obtain ⟨l₁, x, l₂, A2, B2, h1, h2, h3, h4⟩ := ih a' e B htl
      refine ⟨y :: l₁, x, l₂, A2, B2, by rw [h1, List.cons_append], h2, ?_, h4⟩
      rw [hA, h3, List.flatMap_cons, List.append_assoc]
    · cases c with
      | nil =>
        obtain ⟨l₁, x, l₂, A2, B2, h1, h2, h3, h4⟩ :=
          ih [] e B (by simpa using hB.symm)
        obtain ⟨hl₁, hA2⟩ := List.append_eq_nil.mp h3.symm
        refine ⟨y :: l₁, x, l₂, A2, B2, by rw [h1, List.cons_append], h2, ?_, h4⟩
        rw [List.flatMap_cons, hl₁, hA2]
        simp [hfy]
      | cons c0 ctl =>
        simp only [List.cons_append, List.cons.injEq] at hB
        obtain ⟨hec, hBtl⟩ := hB
        subst hec
        exact ⟨[], y, tl, A, ctl, rfl, by simpa using hfy, by simp, hBtl⟩

lemma range_split {n : Nat} {l₁ : List Nat} {j : Nat} {l₂ : List Nat}
    (hsplit : List.range n = l₁ ++ j :: l₂) :
    j = l₁.length ∧ j < n ∧ (List.range n).drop j = j :: l₂ := by
  have hdrop : (List.range n).drop l₁.length = j :: l₂ := by
    rw [hsplit]; exact List.drop_left _ _
  have hlen : l₁.length < n := by
    have hl := congrArg List.length hsplit
    simp only [List.length_range, List.length_append, List.length_cons] at hl
    omega
  have hj : j = l₁.length := by
    have h0 : ((List.range n).drop l₁.length)[0]? = some j := by rw [hdrop]; simp
    rw [List.getElem?_drop, List.getElem?_range (by omega)] at h0
    simpa using h0.symm
  refine ⟨hj, by omega, ?_⟩
  rw [hj] at hdrop ⊢
  exact hdrop

lemma pageContains_slot {p : HeapPage} (hs : p.slot_size ≠ 0) {j : Nat}
    (hj : j < p.total_slots) :
    pageContains p (p.start + j * p.slot_size) = true := by
  have hmul : j * p.slot_size < p.total_slots * p.slot_size :=
    Nat.mul_lt_mul_of_lt_of_le hj (le_refl _) (by omega)
  simp [pageContains]
  omega

lemma pagesDisjoint_false {p q : HeapPage} (hd : pagesDisjoint p q) {a : Nat}
    (hp : pageContains p a = true) (hq : pageContains q a = true) : False := by
  simp [pageContains] at hp hq
  rcases hd with h | h <;> omega

lemma findPageAux_prefix {a : Nat} {p : HeapPage} (hp : pageContains p a = true)
    (ps₂ : List HeapPage) :
    ∀ (ps₁ : List HeapPage) (i : Nat), (∀ q ∈ ps₁, pageContains q a = false) →
      findPageAux (ps₁ ++ p :: ps₂) a i = some (i + ps₁.length) := by
  intro ps₁
  induction ps₁ with
  | nil => intro i _; simp [findPageAux, hp]
  | cons q rest ih =>
    intro i hnc
    have hq : pageContains q a = false := hnc q (List.mem_cons_self q rest)
    show (if pageContains q a = true then some i
        else findPageAux (rest ++ p :: ps₂) a (i + 1)) = some (i + (q :: rest).length)
    rw [hq, if_neg (by simp)]
    rw [ih (i + 1) (fun r hr => hnc r (List.mem_cons_of_mem q hr))]
    congr 1
    simp only [List.length_cons]
    omega

lemma iterate_heap_from_some_found {h : RubyHeap} {a : Nat} {i : Nat}
    (hfind : find_page_for_address h a = some i) :
    iterate_heap_from h (some a) = iterate_heap_from_page h i (some a) := by
  simp [iterate_heap_from, iterate_heap_fromW, hfind]

lemma filterMap_slotYield_eq (mem : Nat → Nat) (p : HeapPage) :
    ∀ l : List Nat, l.filterMap (slotYield mem p) =
      (l.filter (fun j => mem (p.start + j * p.slot_size) != 0)).map
        (fun j => (p.start + j * p.slot_size, mem (p.start + j * p.slot_size))) := by
  intro l
  induction l with
  | nil => rfl
  | cons x tl ih =>
    by_cases hx : mem (p.start + x * p.slot_size) = 0
    · have hy : slotYield mem p x = none := by simp [slotYield, hx]
      simp only [List.filterMap_cons, hy]
      rw [List.filter_cons_of_neg (by simpa using hx), ih]
    · have hy : slotYield mem p x =
          some (p.start + x * p.slot_size, mem (p.start + x * p.slot_size)) := by
        simp [slotYield, hx]
      simp only [List.filterMap_cons, hy]
      rw [List.filter_cons_of_pos (by simpa using hx), List.map_cons, ih]

lemma nodup_map_fst_pagesYield {h : RubyHeap} (hwf : WellFormed h) :
    ((pagesYield h.mem h.pages).map Prod.fst).Nodup := by
  rw [pagesYield, List.flatMap_def, List.map_flatten, List.map_map]
  rw [List.nodup_flatten]
  constructor
  · intro l hl
    obtain ⟨p, hp, hpl⟩ := List.mem_map.mp hl
    subst hpl
    show ((pageYield h.mem p).map Prod.fst).Nodup
    unfold pageYield
    by_cases hv : p.total_slots = 0 ∨ p.slot_size = 0
    · simp [hv]
    · have hs : p.slot_size ≠ 0 := fun h0 => hv (Or.inr h0)
      rw [if_neg hv]
      unfold slotsFrom
      rw [List.drop_zero, filterMap_slotYield_eq, List.map_map]
      have hinj : Function.Injective (fun j : Nat => p.start + j * p.slot_size) := by
        intro j₁ j₂ hj
        simp only at hj
        have h' : j₁ * p.slot_size = j₂ * p.slot_size := Nat.add_left_cancel hj
        exact Nat.eq_of_mul_eq_mul_right (Nat.pos_of_ne_zero hs) h'
      exact ((List.nodup_range p.total_slots).filter _).map hinj
  · have hstep : ∀ p q : HeapPage, pagesDisjoint p q →
        List.Disjoint ((pageYield h.mem p).map Prod.fst)
          ((pageYield h.mem q).map Prod.fst) := by
      intro p q hd x hxp hxq
      obtain ⟨ep, hep, hep1⟩ := List.mem_map.mp hxp
      obtain ⟨eq', heq, heq1⟩ := List.mem_map.mp hxq
      obtain ⟨_, hsp, ⟨jp, hjp, hjp1⟩, _, _⟩ := mem_pageYield hep
      obtain ⟨_, hsq, ⟨jq, hjq, hjq1⟩, _, _⟩ := mem_pageYield heq
      have hcp : pageContains p x = true := by
        rw [← hep1, hjp1]; exact pageContains_slot hsp hjp
      have hcq : pageContains q x = true := by
        rw [← heq1, hjq1]; exact pageContains_slot hsq hjq
      exact pagesDisjoint_false hd hcp hcq
    exact List.Pairwise.map _ (fun a b hd => hstep a b hd) hwf.2

lemma resume_suffix {h : RubyHeap} (hwf : WellFormed h) {L₁ L₂ : List (Nat × Nat)}
    {e : Nat × Nat} (hsplit : pagesYield h.mem h.pages = L₁ ++ e :: L₂) :
    iterate_heap_from h (some e.1) = e :: L₂ := by
  obtain ⟨ps₁, p, ps₂, A2, B2, hpages, hpy, hA, hB⟩ :=
    flatMap_split (pageYield h.mem) h.pages L₁ e L₂ hsplit
  have hvalid : ¬(p.total_slots = 0 ∨ p.slot_size = 0) := by
    intro hv
    rw [pageYield, if_pos hv] at hpy
    exact absurd hpy.symm (by simp)
  have hs : p.slot_size ≠ 0 := fun h0 => hvalid (Or.inr h0)
  rw [pageYield, if_neg hvalid] at hpy
  unfold slotsFrom at hpy
  rw [List.drop_zero] at hpy
  obtain ⟨l₁, j, l₂, hrange, hjy, hA2, hB2⟩ :=
    filterMap_split (slotYield h.mem p) (List.range p.total_slots) A2 e B2 hpy
  obtain ⟨hjlen, hjlt, hdropj⟩ := range_split hrange
  obtain ⟨he1, he2, he3⟩ := slotYield_eq_some hjy
  have hcont : pageContains p e.1 = true := by
    rw [he1]; exact pageContains_slot hs hjlt
  have hprev : ∀ q ∈ ps₁, pageContains q e.1 = false := by
    intro q hq
    have hpair := hwf.2
    rw [hpages, List.pairwise_append] at hpair
    have hd : pagesDisjoint q p := hpair.2.2 q hq p (List.mem_cons_self _ _)
    by_contra hqc
    exact pagesDisjoint_false hd (by simpa using hqc) hcont
  have hfind : find_page_for_address h e.1 = some ps₁.length := by
    rw [find_page_for_address, hpages]
    simpa using findPageAux_prefix hcont ps₂ ps₁ 0 hprev
  rw [iterate_heap_from_some_found hfind]
  have hdrop_pages : h.pages.drop ps₁.length = p :: ps₂ := by
    rw [hpages]; exact List.drop_left _ _
  simp only [iterate_heap_from_page, hdrop_pages]
  have hstart : pythonStartSlot p e.1 = (j : Int) := by
    rw [he1]
    unfold pythonStartSlot
    push_cast
    rw [add_sub_cancel_left]
    exact Int.mul_fdiv_cancel _ (by exact_mod_cast hs)
  have hskip : pageYieldSkip h.mem p e.1 = slotsFrom h.mem p j := by
    unfold pageYieldSkip
    rw [if_neg hvalid]
    simp only [hstart]
    rw [if_neg (by exact_mod_cast Nat.not_le.mpr hjlt)]
    rw [if_neg (by exact_mod_cast Nat.not_lt.mpr (Nat.zero_le j))]
    simp
  have hslots : slotsFrom h.mem p j = e :: l₂.filterMap (slotYield h.mem p) := by
    unfold slotsFrom
    rw [hdropj]
    simp [List.filterMap_cons, hjy]
  rw [hskip, hslots, hB, hB2]
  simp [pagesYield]

/-- C2: for every heap slot whose header flags word is exactly zero (a
free slot), no scan — whatever the type filter, limit or resume
address — ever returns that slot's address as a live object. -/
theorem scan_never_yields_free_slot (h : RubyHeap) (tf lim fa : Option Nat)
    (a : Nat) (hfree : h.mem a = 0) : a ∉ (scan h tf lim fa).1 := by
  intro ha
  obtain ⟨fl, hmem, _⟩ := scan_mem ha
  obtain ⟨_, h2, h3⟩ := mem_iterate_heap_from hmem
  exact h3 (by simpa [hfree] using h2)

/-- C2 witness: in the scenario heap the slot at address 4176 has flags 0
and an unfiltered, unbounded scan does not return it. -/
theorem scan_never_yields_free_slot_witness :
    scenarioHeap.mem 4176 = 0 ∧ 4176 ∉ (scan scenarioHeap none none none).1 :=
  ⟨by decide, scan_never_yields_free_slot scenarioHeap none none none 4176 (by decide)⟩

/-- C9: no object returned by a scan with type filter `t` has a header
whose low-5-bit type tag differs from `t`. -/
theorem scan_type_filter_sound (h : RubyHeap) (t : Nat) (lim fa : Option Nat)
    (a : Nat) (ha : a ∈ (scan h (some t) lim fa).1) :
    h.mem a &&& RBASIC_FLAGS_TYPE_MASK = t := by
  obtain ⟨fl, hmem, hmatch⟩ := scan_mem ha
  obtain ⟨_, h2, _⟩ := mem_iterate_heap_from hmem
  have hfl : (fl &&& RBASIC_FLAGS_TYPE_MASK) = t := by
    simpa [matchesF, typeMismatch] using hmatch
  have h2' : fl = h.mem a := h2
  rw [← h2']
  exact hfl

/-- C9 witness: the object at 4096 returned by a `0x05`-filtered scan of
the scenario heap indeed has type tag `0x05`. -/
theorem scan_type_filter_sound_witness :
    4096 ∈ (scan scenarioHeap (some 0x05) none none).1 ∧
      scenarioHeap.mem 4096 &&& RBASIC_FLAGS_TYPE_MASK = 0x05 :=
  ⟨by decide, scan_type_filter_sound scenarioHeap 0x05 none none 4096 (by decide)⟩

/-- C10: a scan called with `limit = 0` behaves exactly like a scan with
no limit at all — `0` is falsy in `if limit and len(objects) >= limit`,
so every matching live object is returned and the cursor is absent. -/
theorem scan_limit_zero_is_no_limit (h : RubyHeap) (tf fa : Option Nat) :
    scan h tf (some 0) fa = scan h tf none fa := by
  unfold scan
  rw [scanGo_no_limit tf (some 0) (by rfl), scanGo_no_limit tf none (by rfl)]

/-- C7: when the resume address lies in no heap page, the scan emits the
"not found in heap" warning, restarts from page 0, and produces exactly
the objects of a scan with no resume address. -/
theorem scan_bad_cursor_restarts (h : RubyHeap) (tf lim : Option Nat) (a : Nat)
    (hout : ∀ p ∈ h.pages, pageContains p a = false) :
    (iterate_heap_fromW h (some a)).1 = true ∧
      scan h tf lim (some a) = scan h tf lim none := by
  have hfind : find_page_for_address h a = none := findPageAux_eq_none hout 0
  constructor
  · simp [iterate_heap_fromW, hfind]
  · unfold scan iterate_heap_from
    simp [iterate_heap_fromW, hfind]

/-- C7 witness: address 99999 lies in no page of the scenario heap; the
scan warns and returns the same result as a fresh scan. -/
theorem scan_bad_cursor_restarts_witness :
    (∀ p ∈ scenarioHeap.pages, pageContains p 99999 = false) ∧
      (iterate_heap_fromW scenarioHeap (some 99999)).1 = true ∧
      scan scenarioHeap none none (some 99999) = scan scenarioHeap none none none :=
  ⟨by decide, scan_bad_cursor_restarts scenarioHeap none none 99999 (by decide)⟩

/-- C4 counterexample: in the scenario heap
(flags `0x05, 0x05, 0x00, 0x07`), `scan(typeFilter=0x05, limit=1)` does
return one object and the second `0x05` slot's address as cursor, but the
follow-up unfiltered unbounded scan from that cursor returns the second
`0x05` object *and* the `0x07` object — not only the remaining `0x07`
object as the claim states. -/
theorem scan_scenario_counterexample :
    scan scenarioHeap (some 0x05) (some 1) none = ([4096], some 4136) ∧
      scan scenarioHeap none none (some 4136) = ([4136, 4216], none) ∧
      (scan scenarioHeap none none (some 4136)).1 ≠ [4216] := by
  refine ⟨by decide, by decide, by decide⟩

/-- C4 amended: the first filtered scan returns exactly one object with
the second `0x05` slot's address as `nextAddress`; the follow-up scan
with no filter and no limit resumes *at* that address, returning the
second `0x05` object followed by the `0x07` object, with `nextAddress`
absent. -/
theorem scan_scenario_amended :
    scan scenarioHeap (some 0x05) (some 1) none = ([4096], some 4136) ∧
      scan scenarioHeap none none (some 4136) = ([4136, 4216], none) := by
  refine ⟨by decide, by decide⟩

/-- C1: on a well-formed snapshot (positive slot sizes, pairwise disjoint
page ranges), a scan with `limit = N` that returns a cursor has returned
exactly the first `N` objects of the unbounded scan, and resuming from
the cursor — with the same type filter — continues exactly there: the
limited resume yields the next `N` objects, the unbounded resume yields
everything else (concatenating to the unbounded scan, so nothing is
duplicated or skipped), and the unbounded scan's objects are pairwise
distinct. -/
theorem scan_pagination_resume (h : RubyHeap) (tf : Option Nat) (N : Nat)
    (objs1 : List Nat) (a : Nat) (hwf : WellFormed h)
    (hscan : scan h tf (some N) none = (objs1, some a)) :
    objs1 = ((scan h tf none none).1).take N ∧
      objs1.length = N ∧
      (scan h tf (some N) (some a)).1 = (((scan h tf none none).1).drop N).take N ∧
      objs1 ++ (scan h tf none (some a)).1 = (scan h tf none none).1 ∧
      ((scan h tf none none).1).Nodup := by
  have hfull : scan h tf none none =
      (((iterate_heap_from h none).filter (matchesF tf)).map Prod.fst, none) := by
    unfold scan
    rw [scanGo_no_limit tf none rfl]
    simp
  have hN : 0 < N := by
    by_contra h0
    have hN0 : N = 0 := by omega
    rw [hN0] at hscan
    unfold scan at hscan
    rw [scanGo_no_limit tf (some 0) rfl] at hscan
    have := congrArg Prod.snd hscan
    simp at this
  unfold scan at hscan
  rw [scanGo_limit tf N hN _ [] (by simp)] at hscan
  simp only [List.nil_append, List.length_nil, Nat.sub_zero] at hscan
  have hobjs := congrArg Prod.fst hscan
  have hnext := congrArg Prod.snd hscan
  simp only at hobjs hnext
  cases hdropN : ((iterate_heap_from h none).filter (matchesF tf)).drop N with
  | nil => rw [hdropN] at hnext; simp at hnext
  | cons e t =>
    rw [hdropN] at hnext
    simp only [List.head?_cons, Option.map_some] at hnext
    have hNlt : N < ((iterate_heap_from h none).filter (matchesF tf)).length := by
      by_contra hge
      rw [List.drop_eq_nil_of_le (by omega)] at hdropN
      exact absurd hdropN (by simp)
    have hsplitF : (iterate_heap_from h none).filter (matchesF tf) =
        ((iterate_heap_from h none).filter (matchesF tf)).take N ++ e :: t := by
      conv_lhs => rw [← List.take_append_drop N
        ((iterate_heap_from h none).filter (matchesF tf))]
      rw [hdropN]
    obtain ⟨L₁, L₂, hLsplit, hfil1, hfil2, hPe⟩ :=
      filter_split (matchesF tf) (iterate_heap_from h none) _ e t hsplitF
    have hsplit' : pagesYield h.mem h.pages = L₁ ++ e :: L₂ := by
      rw [← iterate_heap_from_none h]
      exact hLsplit
    have hres : iterate_heap_from h (some e.1) = e :: L₂ :=
      resume_suffix hwf hsplit'
    have ha : e.1 = a := by simpa using hnext
    subst ha
    have hscan2 : scan h tf none (some e.1) = ((e :: t).map Prod.fst, none) := by
      unfold scan
      rw [hres, scanGo_no_limit tf none rfl]
      rw [List.filter_cons_of_pos hPe, hfil2]
      simp
    have hscan3 : (scan h tf (some N) (some e.1)).1 = ((e :: t).take N).map Prod.fst := by
      unfold scan
      rw [hres, scanGo_limit tf N hN _ [] (by simp)]
      rw [List.filter_cons_of_pos hPe, hfil2]
      simp
    refine ⟨?_, ?_, ?_, ?_, ?_⟩
    · rw [hfull, ← hobjs, List.map_take]
    · rw [← hobjs]
      simp [List.length_take]
      omega
    · rw [hscan3, hfull]
      simp only [List.map_take, List.map_drop]
      congr 1
      rw [← hdropN, List.map_drop]
    · rw [hscan2, hfull, ← hobjs]
      simp only [← List.map_take, ← List.map_append]
      rw [← hsplitF]
    · rw [hfull]
      simp only
      have hsub : List.Sublist
          (((iterate_heap_from h none).filter (matchesF tf)).map Prod.fst)
          ((iterate_heap_from h none).map Prod.fst) :=
        (List.filter_sublist _).map Prod.fst
      refine hsub.nodup ?_
      rw [iterate_heap_from_none]
      exact nodup_map_fst_pagesYield hwf

/-- C1 witness: on the concrete two-page heap, a scan with limit 2
returns a cursor, and the theorem's pagination conclusions hold there. -/
theorem scan_pagination_resume_witness :
    WellFormed pagingHeap ∧
      scan pagingHeap none (some 2) none = ([4096, 4136], some 4216) ∧
      ([4096, 4136] = ((scan pagingHeap none none none).1).take 2 ∧
        ([4096, 4136] : List Nat).length = 2 ∧
        (scan pagingHeap none (some 2) (some 4216)).1 =
          (((scan pagingHeap none none none).1).drop 2).take 2 ∧
        [4096, 4136] ++ (scan pagingHeap none none (some 4216)).1 =
          (scan pagingHeap none none none).1 ∧
        ((scan pagingHeap none none none).1).Nodup) :=
  ⟨by decide, by decide,
    scan_pagination_resume pagingHeap none 2 [4096, 4136] 4216 (by decide) (by decide)⟩

end RubyHeap

/-- C3: evaluation at the failing input `w = 0xFFFFFFFFFFFFFFFF` (the
encoding of Ruby fixnum `-1`). The word is classified immediate and the
spec's encode of the spec's decode round-trips, but the payload the code
computes is the *logical* shift `0x7FFFFFFFFFFFFFFF`, not the arithmetic
shift `-1` the claim requires. -/
theorem fixnum_negative_payload_bug :
    fixnum_p 0xFFFFFFFFFFFFFFFF = true ∧
      is_immediate 0xFFFFFFFFFFFFFFFF = true ∧
      rimmediate_fixnum_payload 0xFFFFFFFFFFFFFFFF = 0x7FFFFFFFFFFFFFFF ∧
      arithShiftRightOne 0xFFFFFFFFFFFFFFFF = -1 ∧
      (rimmediate_fixnum_payload 0xFFFFFFFFFFFFFFFF : Int) ≠
        arithShiftRightOne 0xFFFFFFFFFFFFFFFF ∧
      encodeFixnum (arithShiftRightOne 0xFFFFFFFFFFFFFFFF) = 0xFFFFFFFFFFFFFFFF := by
  refine ⟨rfl, rfl, rfl, by decide, by decide, by decide⟩

/-- C5: evaluation at the failing input `errinfo = 0x14` (Qtrue). The
pending-error check correctly reports no exception for `Qfalse = 0` and
both nil encodings, but for Qtrue the guard passes — `is_immediate 0x14`
is `false`, contradicting its own docstring — and `RException`
construction succeeds without any memory read, so an exception *is*
reported for the singleton constant true. -/
theorem pending_error_qtrue_bug :
    fiber_exception_reported 0x00 = false ∧
      fiber_exception_reported 0x04 = false ∧
      fiber_exception_reported 0x08 = false ∧
      fiber_exception_reported 0x14 = true ∧
      is_immediate 0x14 = false := by
  refine ⟨rfl, rfl, rfl, rfl, rfl⟩

/-- C6: the fiber unwinder produces no synthetic frame whenever the saved
stack-pointer base, the return-address word at offset 48, or the
reconstructed stack pointer is zero; and every frame it does produce has
its stack pointer equal to the saved-block base plus 48 plus 8 (as a
64-bit value, hence exactly, for any base for which the sum does not
wrap). -/
theorem fiber_unwind_zero_guard (active unwound_first : Bool) (sp : Nat)
    (mem : Nat → Nat) :
    ((sp = 0 ∨ mem (sp + 48) = 0 ∨ (sp + 48 + 8) % 2 ^ 64 = 0) →
      fiber_unwind active unwound_first sp mem = none) ∧
    (∀ info, fiber_unwind active unwound_first sp mem = some info →
      info.rsp = (sp + 48 + 8) % 2 ^ 64 ∧
        (sp + 48 + 8 < 2 ^ 64 → info.rsp = sp + 48 + 8)) := by
  constructor
  · intro hz
    unfold fiber_unwind
    cases active with
    | false => rfl
    | true =>
      cases unwound_first with
      | true => rfl
      | false =>
        rcases hz with hz | hz | hz
        · simp [hz]
        · by_cases hsp : sp = 0
          · simp [hsp]
          · simp [hsp]
            exact fun _ => hz
        · by_cases hsp : sp = 0
          · simp [hsp]
          · simp [hsp]
            intro hne
            exact absurd (by simpa using hz) hne
  · intro info hinfo
    unfold fiber_unwind at hinfo
    cases active with
    | false => simp at hinfo
    | true =>
      cases unwound_first with
      | true => simp at hinfo
      | false =>
        by_cases hsp : sp = 0
        · simp [hsp] at hinfo
        · simp only [Bool.not_true, if_false, hsp] at hinfo
          by_cases hz : (sp + 48 + 8) % 2 ^ 64 = 0 ∨ mem (sp + 48) = 0
          · rw [if_pos hz] at hinfo; exact absurd hinfo (by simp)
          · rw [if_neg hz] at hinfo
            have : info.rsp = (sp + 48 + 8) % 2 ^ 64 := by
              cases hinfo.symm
              rfl
            exact ⟨this, fun hlt => by rw [this, Nat.mod_eq_of_lt hlt]⟩

/-- C6 witness: with a zero saved stack pointer the unwinder yields no
frame, and for the concrete base 1000 with nonzero saved words it yields
a frame whose reconstructed stack pointer is 1000 + 48 + 8 = 1056. -/
theorem fiber_unwind_zero_guard_witness :
    fiber_unwind true false 0 (fun _ => 7) = none ∧
      (fiber_unwind true false 1000 (fun _ => 7) = some ⟨7, 1056, 7, 7, 7, 7, 7, 7⟩ ∧
        UnwindInfo.rsp ⟨7, 1056, 7, 7, 7, 7, 7, 7⟩ = (1000 + 48 + 8) % 2 ^ 64 ∧
        (1000 + 48 + 8 < 2 ^ 64 →
          UnwindInfo.rsp ⟨7, 1056, 7, 7, 7, 7, 7, 7⟩ = 1000 + 48 + 8)) :=
  ⟨(fiber_unwind_zero_guard true false 0 (fun _ => 7)).1 (Or.inl rfl),
    by decide,
    (fiber_unwind_zero_guard true false 1000 (fun _ => 7)).2
      ⟨7, 1056, 7, 7, 7, 7, 7, 7⟩ (by decide)⟩

/-- C8: the flonum decoder returns exactly `0.0` (bit pattern 0) for the
documented special raw pattern `0x8000000000000002`, and every other
flonum word is decoded by conditionally merging the top bit into the two
low bits, rotating right by 3, and reinterpreting the result as an
IEEE-754 double — the source formula coincides with the spec's. -/
theorem flonum_decode_spec :
    float_value_bits 0x8000000000000002 = 0 ∧
      ∀ v, is_flonum v = true → v ≠ 0x8000000000000002 →
        float_value_bits v = spec_flonum_bits v := by
  constructor
  · rfl
  · intro v _ hne
    unfold float_value_bits spec_flonum_bits
    rw [if_neg hne]
    have hb : (v >>> 63) &&& 1 = 0 ∨ (v >>> 63) &&& 1 = 1 := by
      rw [Nat.and_one_is_mod]
      exact Nat.mod_two_eq_zero_or_one _
    rcases hb with hb | hb
    · rw [hb]; simp [Nat.or_comm]
    · rw [hb]; simp [Nat.or_comm]

/-- C8 witness: the flonum word 6 (low bits `10`) satisfies the
hypotheses, and the source decode agrees with the spec formula there. -/
theorem flonum_decode_spec_witness :
    is_flonum 6 = true ∧ (6 : Nat) ≠ 0x8000000000000002 ∧
      float_value_bits 6 = spec_flonum_bits 6 :=
  ⟨rfl, by decide, flonum_decode_spec.2 6 rfl (by decide)⟩

end Toolbox
